import Mathlib

/-
  Shallow embedding of `src/combine.py` (the blocklist combiner).

  Python `bytes` values are modelled as `List Nat` (one `Nat` per byte).
  The relevant module constants and functions of `combine.py` are translated
  one by one; each definition's doc comment points to the line of the source
  it embeds.
-/

namespace Combine

/-- Python `bytes`: a list of byte values. -/
abbrev Bytes := List Nat

/-- The byte string of the ASCII text `0.0.0.0`. -/
def addr0 : Bytes := [48, 46, 48, 46, 48, 46, 48]

/-- The byte string of the ASCII text `127.0.0.1`. -/
def addr127 : Bytes := [49, 50, 55, 46, 48, 46, 48, 46, 49]

/-- `combine.py` line 56, `strip_chars = f'{whitespace}/'.encode()`:
    space, tab, LF, VT, FF, CR and the forward slash. -/
def strip_chars : Bytes := [32, 9, 10, 11, 12, 13, 47]

/-- The bytes on which Python `bytes.split()` (no argument) splits:
    ASCII whitespace, i.e. space, tab, LF, VT, FF, CR. -/
def isSpaceB (c : Nat) : Bool :=
  c == 32 || c == 9 || c == 10 || c == 11 || c == 12 || c == 13

/-- Python `line.strip(strip_chars)`: remove the bytes of `strip_chars`
    from both ends of the byte string. -/
def stripB (l : Bytes) : Bytes :=
  ((l.dropWhile (fun c => c ∈ strip_chars)).reverse.dropWhile
      (fun c => c ∈ strip_chars)).reverse

/-- The bytes excluded by the character class of `keep_regex`
    (`combine.py` line 54): the characters in the set
    hash, asterisk, lt, gt, colon, slash, backslash, open brace, close brace. -/
def keepExcluded : Bytes := [35, 42, 60, 62, 58, 47, 92, 123, 125]

/-- Semantics of `keep_regex.match(line)` (`combine.py` line 54, the pattern
    group-1 `[^...]*` followed by an optional `#.*` and the end anchor), for
    lines that contain no interior newline byte — which holds for every line
    produced by iterating a file, the only way the program calls it.
    Group 1 is the maximal clean prefix; the match succeeds iff the rest of
    the line is empty or starts with a hash byte (35), and on success the
    group-1 text is returned. -/
def keepMatch (l : Bytes) : Option Bytes :=
  match l.dropWhile (fun c => c ∉ keepExcluded) with
  | [] => some (l.takeWhile (fun c => c ∉ keepExcluded))
  | c :: _ =>
      if c = 35 then some (l.takeWhile (fun c => c ∉ keepExcluded)) else none

/-- `combine.py` lines 74-77: replace a leading `127.0.0.1` (9 bytes) by
    `0.0.0.0`; otherwise, if the line does not already start with `0.0.0.0`,
    prepend `0.0.0.0` and a tab (byte 9). -/
def addrNormalize (line : Bytes) : Bytes :=
  if addr127 <+: line then addr0 ++ line.drop 9
  else if addr0 <+: line then line
  else addr0 ++ 9 :: line

/-- Accumulator step of Python `bytes.split()`: `acc` holds the bytes of the
    current word in reverse. -/
def splitAux : Bytes → Bytes → List Bytes
  | [], acc => if acc = [] then [] else [acc.reverse]
  | c :: rest, acc =>
      if isSpaceB c then
        if acc = [] then splitAux rest [] else acc.reverse :: splitAux rest []
      else splitAux rest (c :: acc)

/-- Python `line.split()`: split on runs of ASCII whitespace, discarding
    empty words. -/
def pySplit (l : Bytes) : List Bytes := splitAux l []

/-- `combine.py` line 53: the reserved domains never stored
    (`localhost`, `localhost.localdomain`, `broadcasthost`, `local`). -/
def blacklist : List Bytes :=
  [[108, 111, 99, 97, 108, 104, 111, 115, 116],
   [108, 111, 99, 97, 108, 104, 111, 115, 116, 46,
    108, 111, 99, 97, 108, 100, 111, 109, 97, 105, 110],
   [98, 114, 111, 97, 100, 99, 97, 115, 116, 104, 111, 115, 116],
   [108, 111, 99, 97, 108]]

/-- ASCII decimal digit test. -/
def isDigitB (c : Nat) : Bool := 48 ≤ c && c ≤ 57

/-- Split a byte string on every dot byte (46), keeping empty parts;
    `acc` holds the current part in reverse. -/
def splitDotAux : Bytes → Bytes → List Bytes
  | [], acc => [acc.reverse]
  | c :: rest, acc =>
      if c = 46 then acc.reverse :: splitDotAux rest []
      else splitDotAux rest (c :: acc)

/-- Split a byte string on dots, keeping empty parts. -/
def splitDot (l : Bytes) : List Bytes := splitDotAux l []

/-- Semantics of `ignore_regex.match(s)` (`combine.py` line 55, pattern
    `([0-9]+\.[0-9]+\.[0-9]+\.[0-9]+)$` under `re.match`): the whole string
    is exactly four nonempty digit runs joined by three dots. -/
def ipv4Match (l : Bytes) : Bool :=
  (splitDot l).length == 4 &&
    (splitDot l).all (fun p => !p.isEmpty && p.all isDigitB)

/-- Python `bytes.lower()` on one byte: ASCII uppercase to lowercase. -/
def lowerByte (c : Nat) : Nat := if 65 ≤ c ∧ c ≤ 90 then c + 32 else c

/-- Python `bytes.lower()`. -/
def lowerB (l : Bytes) : Bytes := l.map lowerByte

/-- `combine.py` lines 78-82: split the normalized line on whitespace;
    when exactly two tokens result and the second is not reserved, not a
    pure IPv4 literal and contains a dot, emit the stored byte string
    `token0 ++ tab ++ lower token1`; otherwise emit nothing. -/
def splitFilter (line : Bytes) : Option Bytes :=
  match pySplit line with
  | [a, d] =>
      if d ∈ blacklist ∨ ipv4Match d = true ∨ 46 ∉ d then none
      else some (a ++ 9 :: lowerB d)
  | _ => none

/-- `combine.py` lines 70-82, from the re-strip of the regex group onward:
    `line` is the re-stripped group-1 text; an empty line is dropped,
    otherwise the address prefix is normalized and the line split and
    filtered. -/
def processLine (line : Bytes) : Option Bytes :=
  if line = [] then none else splitFilter (addrNormalize line)

/-- The whole per-line pipeline of `load_file_to_set`
    (`combine.py` lines 64-82): strip, match against `keep_regex`
    (no match drops the line), re-strip the group, then `processLine`. -/
def normalizeLine (raw : Bytes) : Option Bytes :=
  match keepMatch (stripB raw) with
  | none => none
  | some pre => processLine (stripB pre)

/-- The line after the address-prefix normalization step
    (`combine.py` line 77 has run, line 78 has not), when the line
    survives that far. -/
def preprocess (raw : Bytes) : Option Bytes :=
  match keepMatch (stripB raw) with
  | none => none
  | some pre =>
      if stripB pre = [] then none else some (addrNormalize (stripB pre))

/-- A Python set of stored entries. -/
abbrev EntrySet := Finset Bytes

/-- One iteration of the loop body of `load_file_to_set`: add the line's
    entry to the set when the line is accepted. -/
def addLine (data : EntrySet) (raw : Bytes) : EntrySet :=
  match normalizeLine raw with
  | some e => insert e data
  | none => data

/-- `combine.py` lines 59-83, `load_file_to_set(opened_hostfile, data)`:
    fold the per-line step over the file's lines and return the updated
    set together with the count of lines read. -/
def load_file_to_set (lines : List Bytes) (data : EntrySet) : EntrySet × Nat :=
  (lines.foldl addLine data, lines.length)

/-- Building an entry set from scratch, as `backup`, `apply_whitelist`
    and `search_file` do with a fresh `set()`. -/
def loadSet (lines : List Bytes) : EntrySet := (load_file_to_set lines ∅).1

/-- `combine.py` lines 150-160, the per-source differ inside `backup()`:
    with `keep_old` the source is skipped when `new - old` is empty and
    otherwise `new ∪ old` is written; without it the source is skipped when
    `new == old` and otherwise `new` is written. Returns (write?, final set). -/
def should_write (old new : EntrySet) (keep_old : Bool) : Bool × EntrySet :=
  if keep_old then
    if (new \ old).card = 0 then (false, new)
    else (true, new ∪ old)
  else if new = old then (false, new) else (true, new)

/-- `combine.py` lines 173-179, `apply_whitelist(data)`: build a set `w`
    from the whitelist file's lines, remove `w`'s members from `data`
    (`difference_update`), and return the drop in cardinality. -/
def apply_whitelist (data : EntrySet) (wlines : List Bytes) : EntrySet × Nat :=
  let w := loadSet wlines
  (data \ w, data.card - (data \ w).card)

/-- `combine.py` lines 182-193, `apply_trim(data)`: a trim rule is used only
    through `regex.search(test_line)`, a pure boolean test, so a rule is
    embedded as a boolean function on bytes. An entry is marked for removal
    when some rule matches the bytes after its first 8 (the loop breaks at
    the first matching rule); the marked entries are removed and counted. -/
def apply_trim (data : EntrySet) (regexes : List (Bytes → Bool)) :
    EntrySet × Nat :=
  let toRemove := data.filter (fun line => regexes.any (fun r => r (line.drop 8)) = true)
  (data \ toRemove, toRemove.card)

/-- The sorted list of an entry set's members, in the lexicographic order
    on byte strings — the order Python `sorted` uses on `bytes`. -/
def sortedEntries (data : EntrySet) : List Bytes :=
  data.sort (fun a b => a ≤ b)

/-- `b'\n'.join(sorted(data))` (`combine.py` lines 102, 160 and 213):
    the serialized body written for an entry set. -/
def serializeSet (data : EntrySet) : Bytes :=
  List.intercalate [10] (sortedEntries data)

/-! ### Helper lemmas about the byte-level primitives -/

theorem dropWhile_eq_self_of_head {p : Nat → Bool} {l : Bytes}
    (h : ∀ c, l.head? = some c → p c = false) : l.dropWhile p = l := by
  cases l with
  | nil => rfl
  | cons a t => simp [List.dropWhile_cons, h a rfl]

theorem stripB_eq_self {l : Bytes}
    (h1 : ∀ c, l.head? = some c → c ∉ strip_chars)
    (h2 : ∀ c, l.getLast? = some c → c ∉ strip_chars) : stripB l = l := by
  unfold stripB
  have e1 : l.dropWhile (fun c => c ∈ strip_chars) = l :=
    dropWhile_eq_self_of_head (fun c hc => by simp [h1 c hc])
  rw [e1]
  have e2 : l.reverse.dropWhile (fun c => c ∈ strip_chars) = l.reverse :=
    dropWhile_eq_self_of_head (fun c hc => by
      rw [List.head?_reverse] at hc
      simp [h2 c hc])
  rw [e2, List.reverse_reverse]

theorem mem_stripB {l : Bytes} {c : Nat} (h : c ∈ stripB l) : c ∈ l := by
  unfold stripB at h
  rw [List.mem_reverse] at h
  have h2 := (List.dropWhile_sublist _).mem h
  rw [List.mem_reverse] at h2
  exact (List.dropWhile_sublist _).mem h2

theorem keepMatch_eq_self {l : Bytes} (h : ∀ c ∈ l, c ∉ keepExcluded) :
    keepMatch l = some l := by
  unfold keepMatch
  have hd : l.dropWhile (fun c => c ∉ keepExcluded) = [] := by
    rw [List.dropWhile_eq_nil_iff]
    intro c hc
    simp [h c hc]
  have ht : l.takeWhile (fun c => c ∉ keepExcluded) = l := by
    rw [List.takeWhile_eq_self_iff]
    intro c hc
    simp [h c hc]
  rw [hd, ht]

theorem mem_of_keepMatch {l pre : Bytes} (h : keepMatch l = some pre) :
    ∀ c ∈ pre, c ∉ keepExcluded ∧ c ∈ l := by
  have hpre : pre = l.takeWhile (fun c => c ∉ keepExcluded) := by
    unfold keepMatch at h
    split at h
    · exact (Option.some.inj h).symm
    · split at h
      · exact (Option.some.inj h).symm
      · exact absurd h (by simp)
  subst hpre
  intro c hc
  refine ⟨?_, (List.takeWhile_sublist _).mem hc⟩
  have := List.mem_takeWhile_imp hc
  simpa using this

/-! ### Helper lemmas about `pySplit` -/

theorem splitAux_append_of_nonspace {a : Bytes} (l acc : Bytes)
    (h : ∀ c ∈ a, isSpaceB c = false) :
    splitAux (a ++ l) acc = splitAux l (a.reverse ++ acc) := by
  induction a generalizing acc with
  | nil => simp
  | cons c a ih =>
      have hc : isSpaceB c = false := h c (by simp)
      have ha : ∀ x ∈ a, isSpaceB x = false := fun x hx => h x (by simp [hx])
      simp only [List.cons_append, splitAux, hc, Bool.false_eq_true, if_false,
        List.reverse_cons, List.append_assoc, List.singleton_append]
      exact ih (c :: acc) ha

theorem splitAux_first_of_ne_nil {l acc : Bytes} (h : acc ≠ []) :
    splitAux l acc =
      (acc.reverse ++ l.takeWhile (fun c => !isSpaceB c)) ::
        pySplit (l.dropWhile (fun c => !isSpaceB c)) := by
  induction l generalizing acc with
  | nil =>
      simp [splitAux, pySplit, h]
  | cons c t ih =>
      by_cases hc : isSpaceB c = true
      · simp [splitAux, hc, h, List.takeWhile_cons, List.dropWhile_cons, pySplit]
      · have hc' : isSpaceB c = false := by simpa using hc
        simp only [splitAux, hc', Bool.false_eq_true, if_false,
          List.takeWhile_cons, List.dropWhile_cons, Bool.not_false, if_true,
          hc]
        rw [ih (by simp)]
        simp

theorem pySplit_pair {a d : Bytes} (ha : a ≠ []) (hd : d ≠ [])
    (hsa : ∀ c ∈ a, isSpaceB c = false) (hsd : ∀ c ∈ d, isSpaceB c = false) :
    pySplit (a ++ 9 :: d) = [a, d] := by
  unfold pySplit
  rw [splitAux_append_of_nonspace (9 :: d) [] hsa]
  have h9 : isSpaceB 9 = true := by decide
  have hacc : a.reverse ++ ([] : Bytes) ≠ [] := by simpa using ha
  simp only [splitAux, h9, if_true, List.isEmpty_iff, hacc, if_false,
    List.append_nil]
  have hrec : splitAux d [] = [d] := by
    have := splitAux_append_of_nonspace (a := d) [] [] hsd
    rw [List.append_nil] at this
    rw [this]
    simp [splitAux, List.isEmpty_iff, hd]
  rw [hrec]
  simp [List.isEmpty_iff, ha]

theorem splitAux_token_mem {l acc : Bytes} :
    ∀ t ∈ splitAux l acc, ∀ c ∈ t, (c ∈ l ∧ isSpaceB c = false) ∨ c ∈ acc := by
  induction l generalizing acc with
  | nil =>
      intro t ht c hc
      by_cases he : acc = []
      · simp [splitAux, he] at ht
      · simp only [splitAux, if_neg he, List.mem_singleton] at ht
        subst ht
        exact Or.inr (List.mem_reverse.mp hc)
  | cons b rest ih =>
      intro t ht c hc
      by_cases hb : isSpaceB b = true
      · by_cases he : acc = []
        · simp only [splitAux, hb, if_true, if_pos he] at ht
          rcases ih t ht c hc with ⟨h1, h2⟩ | h3
          · exact Or.inl ⟨by simp [h1], h2⟩
          · simp at h3
        · simp only [splitAux, hb, if_true, if_neg he, List.mem_cons] at ht
          rcases ht with ht | ht
          · subst ht
            exact Or.inr (List.mem_reverse.mp hc)
          · rcases ih t ht c hc with ⟨h1, h2⟩ | h3
            · exact Or.inl ⟨by simp [h1], h2⟩
            · simp at h3
      · have hb' : isSpaceB b = false := by simpa using hb
        simp only [splitAux, hb', Bool.false_eq_true, if_false] at ht
        rcases ih t ht c hc with ⟨h1, h2⟩ | h3
        · exact Or.inl ⟨by simp [h1], h2⟩
        · rcases List.mem_cons.mp h3 with h4 | h4
          · subst h4
            exact Or.inl ⟨by simp, hb'⟩
          · exact Or.inr h4

theorem splitAux_token_ne_nil {l acc : Bytes} :
    ∀ t ∈ splitAux l acc, t ≠ [] := by
  induction l generalizing acc with
  | nil =>
      intro t ht
      by_cases he : acc = []
      · simp [splitAux, he] at ht
      · simp only [splitAux, if_neg he, List.mem_singleton] at ht
        subst ht
        simpa using he
  | cons b rest ih =>
      intro t ht
      by_cases hb : isSpaceB b = true
      · by_cases he : acc = []
        · simp only [splitAux, hb, if_true, if_pos he] at ht
          exact ih t ht
        · simp only [splitAux, hb, if_true, if_neg he, List.mem_cons] at ht
          rcases ht with ht | ht
          · subst ht
            simpa using he
          · exact ih t ht
      · have hb' : isSpaceB b = false := by simpa using hb
        simp only [splitAux, hb', Bool.false_eq_true, if_false] at ht
        exact ih t ht

theorem keepMatch_drop_nil {l : Bytes}
    (h : l.dropWhile (fun c => c ∉ keepExcluded) = []) :
    keepMatch l = some (l.takeWhile (fun c => c ∉ keepExcluded)) := by
  unfold keepMatch
  rw [h]

theorem keepMatch_drop_cons {l t : Bytes} {c : Nat}
    (h : l.dropWhile (fun c => c ∉ keepExcluded) = c :: t) :
    keepMatch l =
      if c = 35 then some (l.takeWhile (fun c => c ∉ keepExcluded)) else none := by
  unfold keepMatch
  rw [h]

/-! ### Claims C1, C2, C4, C5, C10 -/

/-- Claim C1, counterexample: the raw line `0.0.0.0 ads.example:80` has its
    first special character at the colon, and the text before the colon
    normalizes to the entry `0.0.0.0 TAB ads.example`; the claim therefore
    predicts that the full line yields that entry, but the code rejects the
    whole line (the regex only tolerates a suffix that starts with a hash). -/
theorem truncation_claim_counterexample :
    normalizeLine
        [48, 46, 48, 46, 48, 46, 48, 32, 97, 100, 115, 46, 101, 120, 97, 109,
         112, 108, 101] =
      some [48, 46, 48, 46, 48, 46, 48, 9, 97, 100, 115, 46, 101, 120, 97,
            109, 112, 108, 101] ∧
    normalizeLine
        [48, 46, 48, 46, 48, 46, 48, 32, 97, 100, 115, 46, 101, 120, 97, 109,
         112, 108, 101, 58, 56, 48] = none := by
  decide

/-- Claim C1, amended: after the initial strip, if the line contains no
    special character, or its first special character is the hash (35), the
    prefix of non-special characters is re-stripped and processed; if the
    first special character is anything else the whole line is rejected. -/
theorem truncation_amended (raw : Bytes) :
    ((stripB raw).dropWhile (fun c => c ∉ keepExcluded) = [] ∨
        ((stripB raw).dropWhile (fun c => c ∉ keepExcluded)).head? = some 35 →
      normalizeLine raw =
        processLine (stripB ((stripB raw).takeWhile (fun c => c ∉ keepExcluded)))) ∧
    (∀ c t, (stripB raw).dropWhile (fun c => c ∉ keepExcluded) = c :: t →
      c ≠ 35 → normalizeLine raw = none) := by
  constructor
  · intro h
    rcases hd : (stripB raw).dropWhile (fun c => c ∉ keepExcluded) with _ | ⟨c, t⟩
    · unfold normalizeLine
      rw [keepMatch_drop_nil hd]
    · rcases h with h | h
      · rw [hd] at h
        simp at h
      · rw [hd] at h
        have hc : c = 35 := by simpa using h
        unfold normalizeLine
        rw [keepMatch_drop_cons hd, if_pos hc]
  · intro c t hd hc
    unfold normalizeLine
    rw [keepMatch_drop_cons hd, if_neg hc]

/-- Claim C1, witness for the amended theorem: on `0.0.0.0 foo.bar # trailing`
    the first special character is the hash, so the line is processed as its
    re-stripped prefix. -/
theorem truncation_amended_witness :
    normalizeLine
        [48, 46, 48, 46, 48, 46, 48, 32, 102, 111, 111, 46, 98, 97, 114, 32,
         35, 32, 116, 114, 97, 105, 108, 105, 110, 103] =
      processLine (stripB
        ((stripB [48, 46, 48, 46, 48, 46, 48, 32, 102, 111, 111, 46, 98, 97,
                  114, 32, 35, 32, 116, 114, 97, 105, 108, 105, 110,
                  103]).takeWhile (fun c => c ∉ keepExcluded))) :=
  (truncation_amended _).1 (Or.inr (by decide))

/-- Claim C2: the differ writes iff `new ≠ old` when `keep_old` is false, and
    then writes exactly `new`; with `keep_old` true it writes iff `new \ old`
    is nonempty, and then writes `new ∪ old`; and when `new = old` nothing is
    written either way. -/
theorem differ_policy (old new : EntrySet) :
    ((should_write old new false).1 = true ↔ new ≠ old) ∧
    (should_write old new false).2 = new ∧
    ((should_write old new true).1 = true ↔ (new \ old).Nonempty) ∧
    ((should_write old new true).1 = true →
      (should_write old new true).2 = new ∪ old) ∧
    (new = old →
      (should_write old new false).1 = false ∧
        (should_write old new true).1 = false) := by
  unfold should_write
  by_cases h1 : new = old
  · subst h1
    simp [Finset.sdiff_self]
  · by_cases h2 : (new \ old).card = 0
    · have h3 : ¬(new \ old).Nonempty := by
        rw [Finset.card_eq_zero] at h2
        simp [h2]
      simp [h1, h2, h3]
    · have h3 : (new \ old).Nonempty := by
        rw [Finset.nonempty_iff_ne_empty]
        intro hcon
        rw [hcon] at h2
        simp at h2
      simp [h1, h2, h3]

/-- Claim C2, witness: old is the two entries `A`, `B`, new is `B`, `C`. -/
theorem differ_policy_witness :
    (should_write {[65], [66]} {[66], [67]} false).1 = true ∧
    (should_write {[65], [66]} {[66], [67]} true).2 =
      {[66], [67]} ∪ {[65], [66]} := by
  constructor
  · exact (differ_policy {[65], [66]} {[66], [67]}).1.mpr (by decide)
  · exact (differ_policy {[65], [66]} {[66], [67]}).2.2.2.1
      ((differ_policy {[65], [66]} {[66], [67]}).2.2.1.mpr (by decide))

/-- Claim C4: the three raw lines `127.0.0.1 example.com`,
    `0.0.0.0 example.com` and `example.com` all normalize to the entry
    `0.0.0.0 TAB example.com`; in general a leading `127.0.0.1` literal is
    replaced by `0.0.0.0` (keeping the rest of the line), and a line starting
    with neither address literal gets `0.0.0.0` plus a tab prepended. -/
theorem address_rewrite_equivalence :
    normalizeLine
        [49, 50, 55, 46, 48, 46, 48, 46, 49, 32, 101, 120, 97, 109, 112, 108,
         101, 46, 99, 111, 109] =
      some [48, 46, 48, 46, 48, 46, 48, 9, 101, 120, 97, 109, 112, 108, 101,
            46, 99, 111, 109] ∧
    normalizeLine
        [48, 46, 48, 46, 48, 46, 48, 32, 101, 120, 97, 109, 112, 108, 101,
         46, 99, 111, 109] =
      some [48, 46, 48, 46, 48, 46, 48, 9, 101, 120, 97, 109, 112, 108, 101,
            46, 99, 111, 109] ∧
    normalizeLine [101, 120, 97, 109, 112, 108, 101, 46, 99, 111, 109] =
      some [48, 46, 48, 46, 48, 46, 48, 9, 101, 120, 97, 109, 112, 108, 101,
            46, 99, 111, 109] ∧
    (∀ line, addr127 <+: line → addrNormalize line = addr0 ++ line.drop 9) ∧
    (∀ line, ¬ addr127 <+: line → ¬ addr0 <+: line →
      addrNormalize line = addr0 ++ 9 :: line) := by
  refine ⟨by decide, by decide, by decide, ?_, ?_⟩
  · intro line h
    unfold addrNormalize
    rw [if_pos h]
  · intro line h1 h2
    unfold addrNormalize
    rw [if_neg h1, if_neg h2]

/-- Claim C4, witness for the two conditional clauses. -/
theorem address_rewrite_equivalence_witness :
    addrNormalize (addr127 ++ [9, 97, 46, 98]) =
      addr0 ++ (addr127 ++ [9, 97, 46, 98]).drop 9 ∧
    addrNormalize [97, 46, 98] = addr0 ++ 9 :: [97, 46, 98] := by
  constructor
  · exact address_rewrite_equivalence.2.2.2.1 _ ⟨[9, 97, 46, 98], rfl⟩
  · exact address_rewrite_equivalence.2.2.2.2 _ (by decide) (by decide)

/-- Claim C5: the whitelist pass removes exactly the entries that are
    byte-for-byte members of the set built from the whitelist lines, keeps
    every other entry, and reports the number removed (the cardinality of
    the intersection). -/
theorem apply_whitelist_exact (data : EntrySet) (wlines : List Bytes) :
    (∀ e, e ∈ (apply_whitelist data wlines).1 ↔
        e ∈ data ∧ e ∉ loadSet wlines) ∧
    (apply_whitelist data wlines).2 = (data ∩ loadSet wlines).card := by
  constructor
  · intro e
    show e ∈ data \ loadSet wlines ↔ e ∈ data ∧ e ∉ loadSet wlines
    exact Finset.mem_sdiff
  · show data.card - (data \ loadSet wlines).card =
      (data ∩ loadSet wlines).card
    have h := Finset.card_inter_add_card_sdiff data (loadSet wlines)
    omega

/-- Claim C5, witness: `0.0.0.0 TAB ads.example.com` is whitelisted away by
    the whitelist line `0.0.0.0 ads.example.com`, while the entry with the
    same domain but address `0.0.0.1` survives (tuple match, not
    domain-only), and one removal is reported. -/
theorem apply_whitelist_exact_witness :
    [48, 46, 48, 46, 48, 46, 49, 9, 97, 100, 115, 46, 101, 120, 97, 109, 112,
     108, 101, 46, 99, 111, 109] ∈
      (apply_whitelist
        {[48, 46, 48, 46, 48, 46, 48, 9, 97, 100, 115, 46, 101, 120, 97, 109,
          112, 108, 101, 46, 99, 111, 109],
         [48, 46, 48, 46, 48, 46, 49, 9, 97, 100, 115, 46, 101, 120, 97, 109,
          112, 108, 101, 46, 99, 111, 109]}
        [[48, 46, 48, 46, 48, 46, 48, 32, 97, 100, 115, 46, 101, 120, 97,
          109, 112, 108, 101, 46, 99, 111, 109]]).1 ∧
    (apply_whitelist
        {[48, 46, 48, 46, 48, 46, 48, 9, 97, 100, 115, 46, 101, 120, 97, 109,
          112, 108, 101, 46, 99, 111, 109],
         [48, 46, 48, 46, 48, 46, 49, 9, 97, 100, 115, 46, 101, 120, 97, 109,
          112, 108, 101, 46, 99, 111, 109]}
        [[48, 46, 48, 46, 48, 46, 48, 32, 97, 100, 115, 46, 101, 120, 97,
          109, 112, 108, 101, 46, 99, 111, 109]]).2 = 1 := by
  constructor
  · exact ((apply_whitelist_exact _ _).1 _).mpr ⟨by decide, by decide⟩
  · rw [(apply_whitelist_exact _ _).2]
    decide

/-- Claim C10: the accepted raw line `127.0.0.100 a.example` is stored with
    address field `0.0.0.000`, not `0.0.0.0`: only the first 9 bytes are
    rewritten and the address token is never validated. -/
theorem address_not_validated :
    normalizeLine
        [49, 50, 55, 46, 48, 46, 48, 46, 49, 48, 48, 32, 97, 46, 101, 120,
         97, 109, 112, 108, 101] =
      some ([48, 46, 48, 46, 48, 46, 48, 48, 48] ++ 9 ::
        [97, 46, 101, 120, 97, 109, 112, 108, 101]) ∧
    ([48, 46, 48, 46, 48, 46, 48, 48, 48] : Bytes) ≠ addr0 := by
  decide

/-! ### Claim C3: the acceptance condition after prefix normalization -/

theorem normalizeLine_eq_bind (raw : Bytes) :
    normalizeLine raw = (preprocess raw).bind splitFilter := by
  unfold normalizeLine preprocess
  rcases hk : keepMatch (stripB raw) with _ | pre
  · rfl
  · by_cases h : stripB pre = []
    · simp [processLine, h]
    · simp [processLine, h]

/-- Claim C3: once a line has survived stripping, the comment regex and
    address-prefix normalization, it is accepted if and only if it splits on
    whitespace into exactly two tokens whose second token is not reserved,
    not a pure IPv4 literal, and contains a dot; in particular a line that
    does not split into exactly two tokens is rejected. -/
theorem acceptance_condition (raw line : Bytes)
    (h : preprocess raw = some line) :
    (normalizeLine raw).isSome = true ↔
      ∃ a d, pySplit line = [a, d] ∧ d ∉ blacklist ∧ ipv4Match d = false ∧
        46 ∈ d := by
  rw [normalizeLine_eq_bind, h]
  show (splitFilter line).isSome = true ↔ _
  unfold splitFilter
  rcases hs : pySplit line with _ | ⟨a, _ | ⟨d, _ | ⟨x, rest⟩⟩⟩
  · simp
  · simp
  · show (if d ∈ blacklist ∨ ipv4Match d = true ∨ 46 ∉ d then none
        else some (a ++ 9 :: lowerB d)).isSome = true ↔ _
    by_cases hc : d ∈ blacklist ∨ ipv4Match d = true ∨ 46 ∉ d
    · rw [if_pos hc]
      simp only [Option.isSome_none, Bool.false_eq_true, false_iff]
      rintro ⟨a', d', he, h1, h2, h3⟩
      have ha : a = a' ∧ d = d' := by simpa using he
      rcases ha with ⟨ha1, ha2⟩
      subst ha1
      subst ha2
      rcases hc with hc | hc | hc
      · exact h1 hc
      · rw [h2] at hc
        simp at hc
      · exact hc h3
    · rw [if_neg hc]
      push_neg at hc
      simp only [Option.isSome_some, true_iff]
      exact ⟨a, d, rfl, hc.1, by simpa using hc.2.1, hc.2.2⟩
  · simp

/-- Claim C3, witness: the line `0.0.0.0 example.com` survives preprocessing
    unchanged and the acceptance condition applies to it. -/
theorem acceptance_condition_witness :
    (normalizeLine
        [48, 46, 48, 46, 48, 46, 48, 32, 101, 120, 97, 109, 112, 108, 101,
         46, 99, 111, 109]).isSome = true ↔
      ∃ a d, pySplit
          [48, 46, 48, 46, 48, 46, 48, 32, 101, 120, 97, 109, 112, 108, 101,
           46, 99, 111, 109] = [a, d] ∧
        d ∉ blacklist ∧ ipv4Match d = false ∧ 46 ∈ d :=
  acceptance_condition _ _ (by decide)

/-! ### Claim C6: trim-rule order invariance -/

/-- Claim C6: the set of entries the trim pass removes — and with it the
    resulting set and the reported count — does not depend on the order of
    the rule list, and an entry is removed exactly when some rule matches
    the bytes after its first 8 (the address-and-separator width). -/
theorem trim_order_invariance (data : EntrySet) (rs rt : List (Bytes → Bool))
    (h : rs.Perm rt) :
    data.filter (fun e => rs.any (fun r => r (e.drop 8)) = true) =
      data.filter (fun e => rt.any (fun r => r (e.drop 8)) = true) ∧
    apply_trim data rs = apply_trim data rt ∧
    (∀ e ∈ data, e ∉ (apply_trim data rs).1 ↔
      ∃ r ∈ rs, r (e.drop 8) = true) := by
  have hany : ∀ e : Bytes,
      rs.any (fun r => r (e.drop 8)) = rt.any (fun r => r (e.drop 8)) := by
    intro e
    have hiff : rs.any (fun r => r (e.drop 8)) = true ↔
        rt.any (fun r => r (e.drop 8)) = true := by
      rw [List.any_eq_true, List.any_eq_true]
      constructor
      · rintro ⟨r, hr, hm⟩
        exact ⟨r, h.mem_iff.mp hr, hm⟩
      · rintro ⟨r, hr, hm⟩
        exact ⟨r, h.mem_iff.mpr hr, hm⟩
    cases hrs : rs.any (fun r => r (e.drop 8)) <;>
      cases hrt : rt.any (fun r => r (e.drop 8)) <;>
        simp_all
  have hfilter : data.filter (fun e => rs.any (fun r => r (e.drop 8)) = true) =
      data.filter (fun e => rt.any (fun r => r (e.drop 8)) = true) :=
    Finset.filter_congr (fun x _ => by rw [hany x])
  refine ⟨hfilter, ?_, ?_⟩
  · show (data \ data.filter (fun e => rs.any (fun r => r (e.drop 8)) = true),
        (data.filter (fun e => rs.any (fun r => r (e.drop 8)) = true)).card) =
      (data \ data.filter (fun e => rt.any (fun r => r (e.drop 8)) = true),
        (data.filter (fun e => rt.any (fun r => r (e.drop 8)) = true)).card)
    rw [hfilter]
  · intro e he
    show e ∉ data \ data.filter (fun e => rs.any (fun r => r (e.drop 8)) = true)
        ↔ _
    simp [Finset.mem_sdiff, he, List.any_eq_true]

/-- Claim C6, witness: a two-rule list and its swap give identical results
    on a one-entry set. -/
theorem trim_order_invariance_witness :
    apply_trim {[48, 46, 48, 46, 48, 46, 48, 9, 97, 46, 98]}
        [fun l => l == [97, 46, 98], fun _ => false] =
      apply_trim {[48, 46, 48, 46, 48, 46, 48, 9, 97, 46, 98]}
        [fun _ => false, fun l => l == [97, 46, 98]] :=
  (trim_order_invariance {[48, 46, 48, 46, 48, 46, 48, 9, 97, 46, 98]}
    [fun l => l == [97, 46, 98], fun _ => false]
    [fun _ => false, fun l => l == [97, 46, 98]]
    (List.Perm.swap (fun _ => false) (fun l => l == [97, 46, 98]) [])).2.1

/-! ### Claim C8: deduplication -/

theorem load_union (lines : List Bytes) (data : EntrySet) :
    (load_file_to_set lines data).1 =
      data ∪ (lines.filterMap normalizeLine).toFinset := by
  induction lines generalizing data with
  | nil => simp [load_file_to_set]
  | cons l ls ih =>
      show (load_file_to_set ls (addLine data l)).1 = _
      rw [ih]
      unfold addLine
      rcases hn : normalizeLine l with _ | e
      · simp [List.filterMap_cons, hn]
      · simp [List.filterMap_cons, hn, Finset.union_insert, Finset.insert_union]

/-- Claim C8: building an entry set is order-independent, a pair of raw
    lines that normalize to the same entry contributes at most one element
    in total wherever the two lines sit in the stream, and the resulting
    set holds no duplicate entries. -/
theorem dedup_invariant (data : EntrySet) (pre mid post : List Bytes)
    (l1 l2 : Bytes) (h : normalizeLine l1 = normalizeLine l2) :
    (∀ lines lt : List Bytes, lines.Perm lt →
        (load_file_to_set lines data).1 = (load_file_to_set lt data).1) ∧
    ((load_file_to_set (pre ++ l1 :: mid ++ l2 :: post) data).1).card ≤
      ((load_file_to_set (pre ++ mid ++ post) data).1).card + 1 ∧
    ((load_file_to_set (pre ++ l1 :: mid ++ l2 :: post) data).1).val.Nodup := by
  have load_perm : ∀ {lines lt : List Bytes}, lines.Perm lt →
      (load_file_to_set lines data).1 = (load_file_to_set lt data).1 := by
    intro lines lt hp
    rw [load_union, load_union, List.toFinset_eq_of_perm _ _ (hp.filterMap _)]
  refine ⟨fun lines lt hp => load_perm hp, ?_, ?_⟩
  · have h2 : (pre ++ (mid ++ l2 :: post)).Perm (l2 :: (pre ++ mid ++ post)) := by
      have hm : ((pre ++ mid) ++ l2 :: post).Perm (l2 :: ((pre ++ mid) ++ post)) :=
        List.perm_middle
      simpa [List.append_assoc] using hm
    have h1 : (pre ++ l1 :: (mid ++ l2 :: post)).Perm
        (l1 :: (pre ++ (mid ++ l2 :: post))) := List.perm_middle
    have hperm : (pre ++ l1 :: mid ++ l2 :: post).Perm
        (l1 :: l2 :: (pre ++ mid ++ post)) := by
      rw [List.append_assoc, List.cons_append]
      exact h1.trans (h2.cons l1)
    rw [load_perm hperm, load_union, load_union]
    rcases hn : normalizeLine l1 with _ | e
    · have hn2 : normalizeLine l2 = none := by rw [← h, hn]
      simp only [List.filterMap_cons, hn, hn2]
      exact Nat.le_succ _
    · have hn2 : normalizeLine l2 = some e := by rw [← h, hn]
      simp only [List.filterMap_cons, hn, hn2, List.toFinset_cons,
        Finset.insert_idem, Finset.union_insert]
      exact Finset.card_insert_le _ _
  · exact ((load_file_to_set (pre ++ l1 :: mid ++ l2 :: post) data).1).nodup

/-- Claim C8, witness: `127.0.0.1 example.com` and `0.0.0.0 example.com`
    normalize identically, so loading both grows the empty set by at most
    one entry. -/
theorem dedup_invariant_witness :
    ((load_file_to_set
        [[49, 50, 55, 46, 48, 46, 48, 46, 49, 32, 101, 120, 97, 109, 112,
          108, 101, 46, 99, 111, 109],
         [48, 46, 48, 46, 48, 46, 48, 32, 101, 120, 97, 109, 112, 108, 101,
          46, 99, 111, 109]] ∅).1).card ≤
      ((load_file_to_set [] ∅).1).card + 1 :=
  (dedup_invariant ∅ [] [] []
    [49, 50, 55, 46, 48, 46, 48, 46, 49, 32, 101, 120, 97, 109, 112, 108,
     101, 46, 99, 111, 109]
    [48, 46, 48, 46, 48, 46, 48, 32, 101, 120, 97, 109, 112, 108, 101, 46,
     99, 111, 109] (by decide)).2.1

/-! ### Claim C9: sorted, deterministic serialization -/

/-- Claim C9: the serialized body of an entry set is its members sorted in
    lexicographic byte order joined by newlines, and any sorted duplicate-free
    enumeration of the same members serializes to the same bytes — the body
    is a function of the set's contents alone. -/
theorem serialization_sorted (s : EntrySet) :
    List.Sorted (fun a b => a ≤ b) (sortedEntries s) ∧
    (∀ e, e ∈ sortedEntries s ↔ e ∈ s) ∧
    serializeSet s = List.intercalate [10] (sortedEntries s) ∧
    (∀ l : List Bytes, List.Sorted (fun a b => a ≤ b) l → l.Nodup →
      (∀ e, e ∈ l ↔ e ∈ s) → List.intercalate [10] l = serializeSet s) := by
  refine ⟨Finset.sort_sorted _ s, fun e => Finset.mem_sort _, rfl, ?_⟩
  intro l hs hn hm
  have hperm : l.Perm (sortedEntries s) :=
    (List.perm_ext_iff_of_nodup hn (Finset.sort_nodup _ s)).mpr
      (fun a => by rw [hm a]; exact (Finset.mem_sort _).symm)
  have he : l = sortedEntries s :=
    List.eq_of_perm_of_sorted hperm hs (Finset.sort_sorted _ s)
  rw [he]
  rfl

/-- Claim C9, witness: the two-entry set written from either enumeration
    order serializes to `a LF b`. -/
theorem serialization_sorted_witness :
    List.intercalate [10] [[97], [98]] = serializeSet {[98], [97]} :=
  (serialization_sorted {[98], [97]}).2.2.2 [[97], [98]]
    (by simp [List.sorted_cons]; decide) (by decide)
    (fun e => by simp [or_comm])

/-! ### Claim C7: helper lemmas about the shape of stored entries -/

theorem lowerByte_idem (c : Nat) : lowerByte (lowerByte c) = lowerByte c := by
  unfold lowerByte
  by_cases h : 65 ≤ c ∧ c ≤ 90
  · rw [if_pos h, if_neg (by omega)]
  · rw [if_neg h, if_neg h]

theorem lowerB_idem (l : Bytes) : lowerB (lowerB l) = lowerB l := by
  unfold lowerB
  rw [List.map_map]
  exact List.map_congr_left (fun c _ => lowerByte_idem c)

theorem lowerByte_props {c : Nat} (h1 : isSpaceB c = false)
    (h2 : c ∉ keepExcluded) :
    isSpaceB (lowerByte c) = false ∧ lowerByte c ∉ keepExcluded := by
  unfold lowerByte
  by_cases h : 65 ≤ c ∧ c ≤ 90
  · rw [if_pos h]
    constructor
    · simp only [isSpaceB, Bool.or_eq_false_iff, beq_eq_false_iff_ne]
      omega
    · simp [keepExcluded]
      omega
  · rw [if_neg h]
    exact ⟨h1, h2⟩

theorem token_byte_not_strip {c : Nat} (h1 : isSpaceB c = false)
    (h2 : c ∉ keepExcluded) : c ∉ strip_chars := by
  simp only [isSpaceB, Bool.or_eq_false_iff, beq_eq_false_iff_ne] at h1
  simp [keepExcluded] at h2
  simp [strip_chars]
  omega

theorem mem_of_getLast?_eq {l : Bytes} {c : Nat} (h : l.getLast? = some c) :
    c ∈ l := by
  have hm : c ∈ l.getLast? := by rw [h]; rfl
  rcases List.mem_getLast?_eq_getLast hm with ⟨hne, hc⟩
  rw [hc]
  exact List.getLast_mem hne

theorem pySplit_token_mem {l : Bytes} :
    ∀ t ∈ pySplit l, ∀ c ∈ t, c ∈ l ∧ isSpaceB c = false := by
  intro t ht c hc
  rcases splitAux_token_mem t ht c hc with h | h
  · exact h
  · simp at h

theorem pySplit_token_ne_nil {l : Bytes} : ∀ t ∈ pySplit l, t ≠ [] :=
  fun t ht => splitAux_token_ne_nil t ht

theorem pySplit_addr0_first {t : Bytes} :
    pySplit (addr0 ++ t) =
      (addr0 ++ t.takeWhile (fun c => !isSpaceB c)) ::
        pySplit (t.dropWhile (fun c => !isSpaceB c)) := by
  unfold pySplit
  rw [splitAux_append_of_nonspace t [] (by decide)]
  rw [splitAux_first_of_ne_nil (by simp [addr0])]
  simp [addr0, pySplit]

/-! ### Claim C7: helper lemmas about the IPv4 recognizer -/

theorem splitDotAux_mem {l : Bytes} :
    ∀ acc c, (c ∈ l ∨ c ∈ acc) → c = 46 ∨ ∃ p ∈ splitDotAux l acc, c ∈ p := by
  induction l with
  | nil =>
      intro acc c hc
      rcases hc with hc | hc
      · simp at hc
      · exact Or.inr ⟨acc.reverse, by simp [splitDotAux],
          List.mem_reverse.mpr hc⟩
  | cons b rest ih =>
      intro acc c hc
      by_cases hb : b = 46
      · subst hb
        simp only [splitDotAux, if_pos rfl]
        rcases hc with hc | hc
        · rcases List.mem_cons.mp hc with hc | hc
          · exact Or.inl hc
          · rcases ih [] c (Or.inl hc) with h46 | ⟨p, hp, hcp⟩
            · exact Or.inl h46
            · exact Or.inr ⟨p, List.mem_cons_of_mem _ hp, hcp⟩
        · exact Or.inr ⟨acc.reverse, List.mem_cons_self _ _,
            List.mem_reverse.mpr hc⟩
      · simp only [splitDotAux, if_neg hb]
        rcases hc with hc | hc
        · rcases List.mem_cons.mp hc with hc | hc
          · subst hc
            exact ih (c :: acc) c (Or.inr (List.mem_cons_self _ _))
          · exact ih (b :: acc) c (Or.inl hc)
        · exact ih (b :: acc) c (Or.inr (List.mem_cons_of_mem _ hc))

theorem ipv4Match_chars {l : Bytes} (h : ipv4Match l = true) :
    ∀ c ∈ l, isDigitB c = true ∨ c = 46 := by
  intro c hc
  unfold ipv4Match at h
  rw [Bool.and_eq_true] at h
  have hall := h.2
  rw [List.all_eq_true] at hall
  rcases splitDotAux_mem [] c (Or.inl hc) with h46 | ⟨p, hp, hcp⟩
  · exact Or.inr h46
  · have hp2 := hall p hp
    rw [Bool.and_eq_true] at hp2
    have hp3 := hp2.2
    rw [List.all_eq_true] at hp3
    exact Or.inl (hp3 c hcp)

theorem ipv4Match_lowerB {d : Bytes} (h : ipv4Match (lowerB d) = true) :
    ipv4Match d = true := by
  have hfix : ∀ c ∈ d, lowerByte c = c := by
    intro c hc
    have hmem : lowerByte c ∈ lowerB d := List.mem_map_of_mem _ hc
    rcases ipv4Match_chars h _ hmem with hd | h46
    · unfold lowerByte at hd ⊢
      by_cases hcu : 65 ≤ c ∧ c ≤ 90
      · rw [if_pos hcu] at hd
        simp only [isDigitB, Bool.and_eq_true, decide_eq_true_eq] at hd
        omega
      · rw [if_neg hcu]
    · unfold lowerByte at h46 ⊢
      by_cases hcu : 65 ≤ c ∧ c ≤ 90
      · rw [if_pos hcu] at h46
        omega
      · rw [if_neg hcu]
  have h1 : d.map lowerByte = d.map id := List.map_congr_left hfix
  rw [List.map_id] at h1
  have h2 : lowerB d = d := h1
  rw [h2] at h
  exact h

theorem dot_mem_lowerB {d : Bytes} (h : 46 ∈ d) : 46 ∈ lowerB d := by
  have h46 : lowerByte 46 = 46 := rfl
  have := List.mem_map_of_mem lowerByte h
  rw [h46] at this
  exact this

theorem splitFilter_some_elim {line e : Bytes} (h : splitFilter line = some e) :
    ∃ a d, pySplit line = [a, d] ∧ d ∉ blacklist ∧ ipv4Match d = false ∧
      46 ∈ d ∧ e = a ++ 9 :: lowerB d := by
  unfold splitFilter at h
  rcases hs : pySplit line with _ | ⟨a, _ | ⟨d, _ | ⟨x, rest⟩⟩⟩ <;> rw [hs] at h
  · simp at h
  · simp at h
  · have h2 : (if d ∈ blacklist ∨ ipv4Match d = true ∨ 46 ∉ d then none
        else some (a ++ 9 :: lowerB d)) = some e := h
    by_cases hc : d ∈ blacklist ∨ ipv4Match d = true ∨ 46 ∉ d
    · rw [if_pos hc] at h2
      simp at h2
    · rw [if_neg hc] at h2
      push_neg at hc
      exact ⟨a, d, rfl, hc.1, by simpa using hc.2.1, hc.2.2,
        (Option.some.inj h2).symm⟩
  · simp at h

theorem normalizeLine_inversion {raw e : Bytes}
    (h : normalizeLine raw = some e) :
    ∃ a d, e = a ++ 9 :: lowerB d ∧ a ≠ [] ∧ d ≠ [] ∧ addr0 <+: a ∧
      (∀ c ∈ a, isSpaceB c = false ∧ c ∉ keepExcluded) ∧
      (∀ c ∈ d, isSpaceB c = false ∧ c ∉ keepExcluded) ∧
      ipv4Match d = false ∧ 46 ∈ d := by
  unfold normalizeLine at h
  rcases hk : keepMatch (stripB raw) with _ | pre <;> rw [hk] at h
  · simp at h
  · have h2 : processLine (stripB pre) = some e := h
    unfold processLine at h2
    by_cases hemp : stripB pre = []
    · rw [if_pos hemp] at h2
      simp at h2
    · rw [if_neg hemp] at h2
      rcases splitFilter_some_elim h2 with ⟨a, d, hsplit, hbl, hipv4, hdot, he⟩
      have hchars1 : ∀ c ∈ stripB pre, c ∉ keepExcluded :=
        fun c hc => (mem_of_keepMatch hk c (mem_stripB hc)).1
      have haddr : ∃ t, addrNormalize (stripB pre) = addr0 ++ t := by
        unfold addrNormalize
        by_cases h1 : addr127 <+: stripB pre
        · rw [if_pos h1]
          exact ⟨_, rfl⟩
        · rw [if_neg h1]
          by_cases hp0 : addr0 <+: stripB pre
          · rw [if_pos hp0]
            rcases hp0 with ⟨t, ht⟩
            exact ⟨t, ht.symm⟩
          · rw [if_neg hp0]
            exact ⟨_, rfl⟩
      have hchars2 : ∀ c ∈ addrNormalize (stripB pre), c ∉ keepExcluded := by
        have haddr0 : ∀ c ∈ addr0, c ∉ keepExcluded := by decide
        unfold addrNormalize
        by_cases h1 : addr127 <+: stripB pre
        · rw [if_pos h1]
          intro c hc
          rcases List.mem_append.mp hc with hc | hc
          · exact haddr0 c hc
          · exact hchars1 c ((List.drop_sublist 9 _).mem hc)
        · rw [if_neg h1]
          by_cases hp0 : addr0 <+: stripB pre
          · rw [if_pos hp0]
            exact hchars1
          · rw [if_neg hp0]
            intro c hc
            rcases List.mem_append.mp hc with hc | hc
            · exact haddr0 c hc
            · rcases List.mem_cons.mp hc with hc | hc
              · subst hc
                decide
              · exact hchars1 c hc
      have hamem : a ∈ pySplit (addrNormalize (stripB pre)) := by
        rw [hsplit]
        simp
      have hdmem : d ∈ pySplit (addrNormalize (stripB pre)) := by
        rw [hsplit]
        simp
      have hca : ∀ c ∈ a, isSpaceB c = false ∧ c ∉ keepExcluded := by
        intro c hc
        have hm := pySplit_token_mem a hamem c hc
        exact ⟨hm.2, hchars2 c hm.1⟩
      have hcd : ∀ c ∈ d, isSpaceB c = false ∧ c ∉ keepExcluded := by
        intro c hc
        have hm := pySplit_token_mem d hdmem c hc
        exact ⟨hm.2, hchars2 c hm.1⟩
      have hane : a ≠ [] := pySplit_token_ne_nil a hamem
      have hdne : d ≠ [] := pySplit_token_ne_nil d hdmem
      have ha0 : addr0 <+: a := by
        rcases haddr with ⟨t, ht⟩
        rw [ht, pySplit_addr0_first] at hsplit
        have hinj := (List.cons.injEq _ _ _ _).mp hsplit
        exact ⟨_, hinj.1⟩
      exact ⟨a, d, he, hane, hdne, ha0, hca, hcd, hipv4, hdot⟩

theorem normalizeLine_refeed {a dl : Bytes} (ha0 : addr0 <+: a)
    (hane : a ≠ []) (hdne : dl ≠ [])
    (hca : ∀ c ∈ a, isSpaceB c = false ∧ c ∉ keepExcluded)
    (hcd : ∀ c ∈ dl, isSpaceB c = false ∧ c ∉ keepExcluded) :
    normalizeLine (a ++ 9 :: dl) =
      if dl ∈ blacklist ∨ ipv4Match dl = true ∨ 46 ∉ dl then none
      else some (a ++ 9 :: lowerB dl) := by
  rcases ha0 with ⟨t, hat⟩
  have hhead : (a ++ 9 :: dl).head? = some 48 := by
    rw [← hat]
    rfl
  have hstrip : stripB (a ++ 9 :: dl) = a ++ 9 :: dl := by
    apply stripB_eq_self
    · intro c hc
      rw [hhead] at hc
      have h48 : 48 = c := Option.some.inj hc
      rw [← h48]
      decide
    · intro c hc
      have hg : (a ++ 9 :: dl).getLast? = dl.getLast? := by
        rw [List.getLast?_append_of_ne_nil a (by simp)]
        show ([9] ++ dl).getLast? = dl.getLast?
        rw [List.getLast?_append_of_ne_nil [9] hdne]
      rw [hg] at hc
      have hmem := mem_of_getLast?_eq hc
      exact token_byte_not_strip (hcd c hmem).1 (hcd c hmem).2
  have hkeep : keepMatch (a ++ 9 :: dl) = some (a ++ 9 :: dl) := by
    apply keepMatch_eq_self
    intro c hc
    rcases List.mem_append.mp hc with hc | hc
    · exact (hca c hc).2
    · rcases List.mem_cons.mp hc with hc | hc
      · subst hc
        decide
      · exact (hcd c hc).2
  have hne : a ++ 9 :: dl ≠ [] := by simp
  have hnorm : addrNormalize (a ++ 9 :: dl) = a ++ 9 :: dl := by
    unfold addrNormalize
    have hnot127 : ¬ addr127 <+: a ++ 9 :: dl := by
      rintro ⟨u, hu⟩
      have h1 := congrArg List.head? hu
      rw [hhead] at h1
      have h2 : some 49 = some 48 := h1
      exact absurd (Option.some.inj h2) (by decide)
    rw [if_neg hnot127]
    have hp0 : addr0 <+: a ++ 9 :: dl := ⟨t ++ 9 :: dl, by
      rw [← hat]
      simp⟩
    rw [if_pos hp0]
  have hpair : pySplit (a ++ 9 :: dl) = [a, dl] :=
    pySplit_pair hane hdne (fun c hc => (hca c hc).1) (fun c hc => (hcd c hc).1)
  unfold normalizeLine
  rw [hstrip, hkeep]
  show processLine (stripB (a ++ 9 :: dl)) = _
  rw [hstrip]
  unfold processLine
  rw [if_neg hne, hnorm]
  unfold splitFilter
  rw [hpair]

/-- Claim C7, counterexample: the raw line `0.0.0.0 Localhost.localdomain`
    normalizes to the entry `0.0.0.0 TAB localhost.localdomain` — the
    reserved-name test sees the mixed-case token, which is not in the
    blacklist — yet feeding the serialized entry back yields nothing,
    because the stored domain is lower-cased and now is reserved. -/
theorem idempotence_counterexample :
    normalizeLine
        [48, 46, 48, 46, 48, 46, 48, 32, 76, 111, 99, 97, 108, 104, 111, 115,
         116, 46, 108, 111, 99, 97, 108, 100, 111, 109, 97, 105, 110] =
      some [48, 46, 48, 46, 48, 46, 48, 9, 108, 111, 99, 97, 108, 104, 111,
            115, 116, 46, 108, 111, 99, 97, 108, 100, 111, 109, 97, 105,
            110] ∧
    normalizeLine
        [48, 46, 48, 46, 48, 46, 48, 9, 108, 111, 99, 97, 108, 104, 111, 115,
         116, 46, 108, 111, 99, 97, 108, 100, 111, 109, 97, 105, 110] =
      none := by
  decide

/-- Claim C7, amended: every entry the normalizer emits has the shape
    `address TAB domain`; feeding the serialized entry back yields exactly
    the same entry whenever the stored (lower-cased) domain is not in the
    reserved set, and is rejected when it is — the sole source of
    non-idempotence. -/
theorem idempotence_amended (raw e : Bytes) (h : normalizeLine raw = some e) :
    ∃ a d, e = a ++ 9 :: d ∧
      (d ∉ blacklist → normalizeLine e = some e) ∧
      (d ∈ blacklist → normalizeLine e = none) := by
  rcases normalizeLine_inversion h with
    ⟨a, d0, he, hane, hdne, ha0, hca, hcd, hipv4, hdot⟩
  subst he
  have hcd' : ∀ c ∈ lowerB d0, isSpaceB c = false ∧ c ∉ keepExcluded := by
    intro c hc
    rcases List.mem_map.mp hc with ⟨c0, hc0, hceq⟩
    subst hceq
    exact lowerByte_props (hcd c0 hc0).1 (hcd c0 hc0).2
  have hdne' : lowerB d0 ≠ [] := by
    simp [lowerB]
    exact hdne
  have hred := normalizeLine_refeed ha0 hane hdne' hca hcd'
  refine ⟨a, lowerB d0, rfl, ?_, ?_⟩
  · intro hbl
    have hipv4' : ipv4Match (lowerB d0) = false := by
      cases hh : ipv4Match (lowerB d0)
      · rfl
      · exact absurd hipv4 (by rw [ipv4Match_lowerB hh]; simp)
    have hdot' : 46 ∈ lowerB d0 := dot_mem_lowerB hdot
    rw [hred, if_neg (by push_neg; exact ⟨hbl, by simp [hipv4'], hdot'⟩)]
    rw [lowerB_idem]
  · intro hbl
    rw [hred, if_pos (Or.inl hbl)]

/-- Claim C7, witness for the amended theorem: the entry produced from
    `0.0.0.0 example.com` decomposes as address, tab and a domain, and
    re-normalizing behaves as the amended claim states. -/
theorem idempotence_amended_witness :
    ∃ a d, [48, 46, 48, 46, 48, 46, 48, 9, 101, 120, 97, 109, 112, 108, 101,
        46, 99, 111, 109] = a ++ 9 :: d ∧
      (d ∉ blacklist →
        normalizeLine [48, 46, 48, 46, 48, 46, 48, 9, 101, 120, 97, 109, 112,
            108, 101, 46, 99, 111, 109] =
          some [48, 46, 48, 46, 48, 46, 48, 9, 101, 120, 97, 109, 112, 108,
                101, 46, 99, 111, 109]) ∧
      (d ∈ blacklist →
        normalizeLine [48, 46, 48, 46, 48, 46, 48, 9, 101, 120, 97, 109, 112,
            108, 101, 46, 99, 111, 109] = none) :=
  idempotence_amended
    [48, 46, 48, 46, 48, 46, 48, 32, 101, 120, 97, 109, 112, 108, 101, 46,
     99, 111, 109] _ (by decide)

end Combine
